import Mathlib

/-!
Verification of the completion-orchestration engine of the smart-autocomplete
content script (src/content.js).  Text is modelled as `List Char`; the JS
string operations used by the engine (slice, trim, toLowerCase, the concrete
regexes) are embedded as executable Lean functions, and the stateful pieces
(the LRU cache, the trigger throttle, the streaming loop) as explicit state
passing.  32-bit JS integer arithmetic is modelled on `Int` with an explicit
wrap at 2^32.
-/

/- ## Character-level utilities shared by the embedded string operations -/

/-- JS `\s` for the character sets used in the script (ASCII whitespace). -/
def isWsChar (c : Char) : Bool :=
  c = ' ' || c = '\t' || c = '\n' || c = '\r' || c = '\x0b' || c = '\x0c'

/-- Sentence-terminating marks, the class `[.!?]` of the script's regexes. -/
def isTermChar (c : Char) : Bool :=
  c = '.' || c = '!' || c = '?'

/-- The punctuation class `[,;:.!?]` stripped from the head of completions. -/
def isLeadPunctChar (c : Char) : Bool :=
  c = ',' || c = ';' || c = ':' || c = '.' || c = '!' || c = '?'

/-- Case-insensitive character normalisation, JS `toLowerCase` on ASCII. -/
def lowAll (s : List Char) : List Char := s.map Char.toLower

/-- JS `String.prototype.trim`: drop whitespace from both ends. -/
def trimChars (s : List Char) : List Char :=
  ((s.dropWhile isWsChar).reverse.dropWhile isWsChar).reverse

/-- JS `slice(-n)`: the last `n` characters (the whole string when shorter). -/
def lastN (n : Nat) (s : List Char) : List Char := s.drop (s.length - n)

/-- JS `startsWith` after lowering both sides (case-insensitive test). -/
def startsWithCI (pat s : List Char) : Bool :=
  lowAll (s.take pat.length) = lowAll pat

/-- Case-insensitive substring occurrence test. -/
def containsCI (pat : List Char) : List Char → Bool
  | [] => decide (pat = [])
  | c :: rest => startsWithCI pat (c :: rest) || containsCI pat rest

/-- One fuelled pass removing left-to-right non-overlapping case-insensitive
occurrences of `pat`; with fuel `s.length` this is JS
`s.replace(new RegExp(pat, "gi"), "")` for the literal patterns used here. -/
def removeAllAux (pat : List Char) : Nat → List Char → List Char
  | 0, s => s
  | _ + 1, [] => []
  | fuel + 1, c :: rest =>
    if startsWithCI pat (c :: rest) ∧ pat ≠ [] then
      removeAllAux pat fuel ((c :: rest).drop pat.length)
    else
      c :: removeAllAux pat fuel rest

/-- JS `s.replace(/pat/gi, "")` for a literal pattern `pat`. -/
def removeAllCI (pat s : List Char) : List Char :=
  removeAllAux pat s.length s

/-- JS `join(" ")` on a list of strings. -/
def joinSp (xs : List (List Char)) : List Char :=
  List.intercalate [' '] xs

/- ## CacheStore: the LRUCache class (content.js lines 6-26)

The JS `Map` is insertion-ordered, so the cache is a list of key/value
pairs ordered least-recently-used first; `map.keys().next().value` is the
head of the list. -/

/-- JS `map.delete(key)`: remove the entry of `k` (keys are unique). -/
def eraseKey (k : String) (m : List (String × String)) : List (String × String) :=
  m.filter (fun p => decide (p.1 ≠ k))

/-- JS `map.get(key)` lookup without the LRU reordering. -/
def findVal (k : String) : List (String × String) → Option String
  | [] => none
  | p :: rest => if p.1 = k then some p.2 else findVal k rest

/-- The method `LRUCache.get`: on a hit the entry is deleted and re-inserted at the
most-recently-used end; on a miss the map is untouched and `null` returned. -/
def lruGet (m : List (String × String)) (k : String) :
    Option String × List (String × String) :=
  match findVal k m with
  | none => (none, m)
  | some v => (some v, eraseKey k m ++ [(k, v)])

/-- The method `LRUCache.set`: delete any existing entry, insert at the MRU end, and if
the size now exceeds the capacity drop the head (the oldest key). -/
def lruSet (cap : Nat) (m : List (String × String)) (k v : String) :
    List (String × String) :=
  let m' := eraseKey k m ++ [(k, v)]
  if cap < m'.length then m'.tail else m'

/-- The keys of the cache in LRU-to-MRU order. -/
def keysOf (m : List (String × String)) : List String := m.map Prod.fst

/-- The key `LRUCache.set` would evict from state `m` (the head of the map
after insertion, when the capacity is exceeded). -/
def evictedKey (cap : Nat) (m : List (String × String)) (k v : String) :
    Option String :=
  let m' := eraseKey k m ++ [(k, v)]
  if cap < m'.length then (keysOf m').head? else none

/-- A get or set operation performed on the cache. -/
inductive CacheOp where
  | get (k : String)
  | set (k : String) (v : String)
deriving DecidableEq

/-- Cache state instrumented with the last time each key was touched by a
`get` hit or a `set`, and a step counter. -/
structure CacheTrace where
  entries : List (String × String)
  touches : List (String × Nat)
  clock : Nat
deriving DecidableEq

/-- Last touch time recorded for a key (0 when never touched). -/
def touchOf : List (String × Nat) → String → Nat
  | [], _ => 0
  | p :: rest, k => if p.1 = k then p.2 else touchOf rest k

/-- One cache operation: `get` on a present key touches it and moves it to
the MRU end, `get` on an absent key is a no-op, `set` touches the key,
inserts it at the MRU end and evicts the LRU head on overflow. -/
def stepCache (cap : Nat) (st : CacheTrace) : CacheOp → CacheTrace
  | .get k =>
    match findVal k st.entries with
    | none => { st with clock := st.clock + 1 }
    | some v =>
      { entries := eraseKey k st.entries ++ [(k, v)],
        touches := (k, st.clock) :: st.touches,
        clock := st.clock + 1 }
  | .set k v =>
    { entries := lruSet cap st.entries k v,
      touches := (k, st.clock) :: st.touches,
      clock := st.clock + 1 }

/-- Run a sequence of cache operations from the empty cache. -/
def runCache (cap : Nat) (ops : List CacheOp) : CacheTrace :=
  ops.foldl (stepCache cap) ⟨[], [], 0⟩

/- ## LRU invariant: entries are ordered by last touch time -/

theorem keysOf_append_single (m : List (String × String)) (k v : String) :
    keysOf (m ++ [(k, v)]) = keysOf m ++ [k] := by
  simp [keysOf]

theorem mem_keysOf_eraseKey {a k : String} {m : List (String × String)}
    (h : a ∈ keysOf (eraseKey k m)) : a ∈ keysOf m ∧ a ≠ k := by
  simp only [keysOf, eraseKey, List.mem_map] at h ⊢
  obtain ⟨p, hp, rfl⟩ := h
  rw [List.mem_filter] at hp
  exact ⟨⟨p, hp.1, rfl⟩, by simpa using hp.2⟩

theorem length_eraseKey_le (k : String) (m : List (String × String)) :
    (eraseKey k m).length ≤ m.length :=
  List.length_filter_le _ m

theorem length_eraseKey_lt {k v : String} {m : List (String × String)}
    (h : findVal k m = some v) : (eraseKey k m).length < m.length := by
  induction m with
  | nil => simp [findVal] at h
  | cons p rest ih =>
    by_cases hk : p.1 = k
    · have : eraseKey k (p :: rest) = eraseKey k rest := by
        simp [eraseKey, List.filter, hk]
      rw [this]
      exact Nat.lt_succ_of_le (length_eraseKey_le k rest)
    · rw [findVal, if_neg hk] at h
      have : eraseKey k (p :: rest) = p :: eraseKey k rest := by
        simp [eraseKey, List.filter, hk]
      rw [this]
      simpa using ih h

theorem touchOf_cons (k : String) (t : Nat) (tm : List (String × Nat)) (a : String) :
    touchOf ((k, t) :: tm) a = if k = a then t else touchOf tm a := rfl

theorem keysOf_sublist_of_eraseKey (k : String) (m : List (String × String)) :
    List.Sublist (keysOf (eraseKey k m)) (keysOf m) :=
  List.Sublist.map Prod.fst (List.filter_sublist m)

/-- The well-formedness invariant of the instrumented cache: the size is
bounded by the capacity, every present key was touched before the current
clock, and the entry list is sorted by strictly increasing last-touch time
(LRU first, MRU last). -/
structure CacheInv (cap : Nat) (st : CacheTrace) : Prop where
  sizeLe : st.entries.length ≤ cap
  touchLt : ∀ a ∈ keysOf st.entries, touchOf st.touches a < st.clock
  sorted : List.Pairwise
    (fun a b => touchOf st.touches a < touchOf st.touches b) (keysOf st.entries)

theorem touched_append {m : List (String × String)} {tm : List (String × Nat)}
    {clock : Nat} (k v : String)
    (hLt : ∀ a ∈ keysOf m, touchOf tm a < clock)
    (hSorted : List.Pairwise
      (fun a b => touchOf tm a < touchOf tm b) (keysOf m)) :
    List.Pairwise
      (fun a b => touchOf ((k, clock) :: tm) a < touchOf ((k, clock) :: tm) b)
      (keysOf (eraseKey k m ++ [(k, v)]))
    ∧ ∀ a ∈ keysOf (eraseKey k m ++ [(k, v)]),
        touchOf ((k, clock) :: tm) a < clock + 1 := by
  rw [keysOf_append_single]
  have hTouchE : ∀ a ∈ keysOf (eraseKey k m),
      touchOf ((k, clock) :: tm) a = touchOf tm a := by
    intro a ha
    have hne := (mem_keysOf_eraseKey ha).2
    rw [touchOf_cons, if_neg (fun h => hne h.symm)]
  have hTouchK : touchOf ((k, clock) :: tm) k = clock := by
    rw [touchOf_cons, if_pos rfl]
  constructor
  · rw [List.pairwise_append]
    refine ⟨?_, List.pairwise_singleton _ _, ?_⟩
    · have base : List.Pairwise
          (fun a b => touchOf tm a < touchOf tm b) (keysOf (eraseKey k m)) :=
        hSorted.sublist (keysOf_sublist_of_eraseKey k m)
      exact base.imp_of_mem (fun ha hb hab => by
        rw [hTouchE _ ha, hTouchE _ hb]; exact hab)
    · intro a ha b hb
      rw [List.mem_singleton] at hb
      subst hb
      rw [hTouchE _ ha, hTouchK]
      exact hLt a (mem_keysOf_eraseKey ha).1
  · intro a ha
    rcases List.mem_append.1 ha with hE | hK
    · rw [hTouchE _ hE]
      exact Nat.lt_succ_of_lt (hLt a (mem_keysOf_eraseKey hE).1)
    · rw [List.mem_singleton] at hK
      subst hK
      rw [hTouchK]
      exact Nat.lt_succ_self _

theorem length_lruSet_le (cap : Nat) (m : List (String × String)) (k v : String)
    (h : m.length ≤ cap) : (lruSet cap m k v).length ≤ cap := by
  rw [lruSet]
  have h1 : (eraseKey k m ++ [(k, v)]).length ≤ cap + 1 := by
    have := length_eraseKey_le k m
    simp only [List.length_append, List.length_singleton]
    omega
  by_cases hc : cap < (eraseKey k m ++ [(k, v)]).length
  · simp only [hc, if_true, List.length_tail]
    omega
  · simp only [hc, if_false]
    omega

theorem keysOf_lruSet_sublist (cap : Nat) (m : List (String × String)) (k v : String) :
    List.Sublist (keysOf (lruSet cap m k v)) (keysOf (eraseKey k m ++ [(k, v)])) := by
  rw [lruSet]
  by_cases hc : cap < (eraseKey k m ++ [(k, v)]).length
  · simp only [hc, if_true]
    exact List.Sublist.map Prod.fst (List.tail_sublist _)
  · simp only [hc, if_false]
    exact List.Sublist.refl _

theorem cacheInv_step (cap : Nat) (st : CacheTrace) (op : CacheOp)
    (h : CacheInv cap st) : CacheInv cap (stepCache cap st op) := by
  obtain ⟨hSize, hLt, hSorted⟩ := h
  cases op with
  | get k =>
    simp only [stepCache]
    cases hFind : findVal k st.entries with
    | none =>
      exact ⟨hSize, fun a ha => Nat.lt_succ_of_lt (hLt a ha), hSorted⟩
    | some v =>
      have hT := touched_append k v hLt hSorted
      refine ⟨?_, hT.2, hT.1⟩
      show (eraseKey k st.entries ++ [(k, v)]).length ≤ cap
      calc (eraseKey k st.entries ++ [(k, v)]).length
          = (eraseKey k st.entries).length + 1 := by simp
        _ ≤ st.entries.length := length_eraseKey_lt hFind
        _ ≤ cap := hSize
  | set k v =>
    have hT := touched_append k v hLt hSorted
    have hsub := keysOf_lruSet_sublist cap st.entries k v
    exact ⟨length_lruSet_le cap st.entries k v hSize,
           fun a ha => hT.2 a (hsub.mem ha),
           hT.1.sublist hsub⟩

theorem cacheInv_foldl (cap : Nat) (ops : List CacheOp) :
    ∀ st : CacheTrace, CacheInv cap st →
      CacheInv cap (ops.foldl (stepCache cap) st) := by
  induction ops with
  | nil => intro st h; exact h
  | cons op rest ih =>
    intro st h
    exact ih _ (cacheInv_step cap st op h)

theorem cacheInv_runCache (cap : Nat) (ops : List CacheOp) :
    CacheInv cap (runCache cap ops) := by
  refine cacheInv_foldl cap ops _ ⟨Nat.zero_le _, ?_, ?_⟩
  · intro a ha; simp [keysOf] at ha
  · simp [keysOf]

theorem getLast?_of_concat (l : List String) (a : String) :
    (l ++ [a]).getLast? = some a := by
  simp

theorem keysOf_tail (m : List (String × String)) :
    keysOf m.tail = (keysOf m).tail := by
  cases m <;> rfl

/-- Claim C1: the cache is strict LRU.  For every sequence of get and set
operations from the empty cache of capacity `cap`: (i) the cache holds at
most `cap` entries; (ii) a `get` on a present key `kg` moves that key to the
most-recently-used end; (iii) whenever a further `set k v` makes the size
exceed the capacity, the single entry removed is the head `d`, which is
absent afterwards and whose last touch time (by a get or set) is strictly
smaller than that of every entry remaining in the cache. -/
theorem lruCache_strict (cap : Nat) (ops : List CacheOp) (kg k v d : String) :
    (runCache cap ops).entries.length ≤ cap
  ∧ (∀ w, findVal kg (runCache cap ops).entries = some w →
      (keysOf (lruGet (runCache cap ops).entries kg).2).getLast? = some kg)
  ∧ (evictedKey cap (runCache cap ops).entries k v = some d →
      d ∉ keysOf (lruSet cap (runCache cap ops).entries k v)
    ∧ ∀ a ∈ keysOf (lruSet cap (runCache cap ops).entries k v),
        touchOf ((k, (runCache cap ops).clock) :: (runCache cap ops).touches) d
          < touchOf ((k, (runCache cap ops).clock) :: (runCache cap ops).touches) a) := by
  obtain ⟨hSize, hLt, hSorted⟩ := cacheInv_runCache cap ops
  refine ⟨hSize, ?_, ?_⟩
  · intro w hw
    simp only [lruGet, hw]
    rw [keysOf_append_single, getLast?_of_concat]
  · intro hev
    simp only [evictedKey] at hev
    by_cases hc : cap < (eraseKey k (runCache cap ops).entries ++ [(k, v)]).length
    · rw [if_pos hc] at hev
      have hset : lruSet cap (runCache cap ops).entries k v
          = (eraseKey k (runCache cap ops).entries ++ [(k, v)]).tail := by
        rw [lruSet, if_pos hc]
      have hT := touched_append k v hLt hSorted
      cases hK : keysOf (eraseKey k (runCache cap ops).entries ++ [(k, v)]) with
      | nil => rw [hK] at hev; simp at hev
      | cons d0 t =>
        rw [hK] at hev
        simp only [List.head?_cons, Option.some.injEq] at hev
        subst hev
        have hpw := hT.1
        rw [hK, List.pairwise_cons] at hpw
        have hKt : keysOf ((eraseKey k (runCache cap ops).entries ++ [(k, v)]).tail)
            = t := by
          rw [keysOf_tail, hK]
          rfl
        refine ⟨?_, ?_⟩
        · rw [hset, hKt]
          intro hmem
          exact absurd (hpw.1 d0 hmem) (lt_irrefl _)
        · intro a ha
          rw [hset, hKt] at ha
          exact hpw.1 a ha
    · rw [if_neg hc] at hev
      exact absurd hev (by simp)

/-- A short demonstration trace for the LRU theorem. -/
def demoCacheOps : List CacheOp :=
  [.set "a" "1", .set "b" "2", .get "a"]

/-- Witness for C1: on the trace set a, set b, get a with capacity 2, the
size bound holds, a get on "a" leaves "a" most recently used, and a further
set of a fresh key "c" evicts "b", the least recently touched key. -/
theorem lruCache_strict_witness :
    (runCache 2 demoCacheOps).entries.length ≤ 2
  ∧ (keysOf (lruGet (runCache 2 demoCacheOps).entries "a").2).getLast? = some "a"
  ∧ touchOf (("c", (runCache 2 demoCacheOps).clock) :: (runCache 2 demoCacheOps).touches) "b"
      < touchOf (("c", (runCache 2 demoCacheOps).clock) :: (runCache 2 demoCacheOps).touches) "a"
  ∧ "b" ∉ keysOf (lruSet 2 (runCache 2 demoCacheOps).entries "c" "3") := by
  have h := lruCache_strict 2 demoCacheOps "a" "c" "3" "b"
  have hev := h.2.2 (by decide)
  exact ⟨h.1, h.2.1 "1" (by decide), hev.2 "a" (by decide), hev.1⟩

/- ## StreamAssembler: cleaning pipeline (content.js lines 537-611, 1305-1314) -/

/-- JS `replace(/[\s]+/g, " ")`: condense every whitespace run to one space;
the Bool flag records whether we are inside a run already emitted. -/
def condenseWsAux : Bool → List Char → List Char
  | _, [] => []
  | inRun, c :: rest =>
    if isWsChar c then
      if inRun then condenseWsAux true rest
      else ' ' :: condenseWsAux true rest
    else c :: condenseWsAux false rest

/-- JS `replace(/[\s]+/g, " ")`. -/
def condenseWs (s : List Char) : List Char := condenseWsAux false s

/-- The zero-width class `[​-‍﻿]`. -/
def isZeroWidth (c : Char) : Bool :=
  (0x200B ≤ c.toNat && c.toNat ≤ 0x200D) || c.toNat = 0xFEFF

/-- The punctuation class removed by `norm` in `removeContextOverlap`. -/
def isNormPunct (c : Char) : Bool :=
  c = ',' || c = '.' || c = ';' || c = ':' || c = '!' || c = '?' || c = '-' ||
  c = '(' || c = ')' || c = '[' || c = ']' || c = '\x7b' || c = '\x7d' ||
  c = '\x22' || c = '\x27'

/-- The `norm` helper of `removeContextOverlap`: lower-case, condense
whitespace, drop zero-width characters, drop punctuation, trim. -/
def normText (s : List Char) : List Char :=
  trimChars (((condenseWs (lowAll s)).filter (fun c => !isZeroWidth c)).filter
    (fun c => !isNormPunct c))

/-- Largest `i ≤ n` such that the last `i` characters of `a` equal the first
`i` of `b` (the for-loop of `removeContextOverlap`, counting down from n). -/
def overlapFrom : Nat → List Char → List Char → Nat
  | 0, _, _ => 0
  | i + 1, a, b =>
    if lastN (i + 1) a = b.take (i + 1) then i + 1 else overlapFrom i a b

/-- The while-loop of `removeContextOverlap` computing the raw slice index
for a normalized overlap: characters are consumed from the completion while
the normalized built prefix is still shorter than the normalized overlap. -/
def walkIdx (normOv : Nat) : List Char → List Char → Nat
  | _, [] => 0
  | built, c :: rest =>
    if (normText built).length < normOv then 1 + walkIdx normOv (built ++ [c]) rest
    else 0

/-- JS `replace(/^[,;:.!?]+\s*/, "")`: when the string starts with leading
punctuation, drop that run and any following whitespace. -/
def stripLeadingPunct (s : List Char) : List Char :=
  let t := s.dropWhile isLeadPunctChar
  if t.length = s.length then s else t.dropWhile isWsChar

/-- The overlap computation of `removeContextOverlap` (lines 562-611): remove
the overlap between the tail of the context (a 120-char window) and the head
of the completion, computed directly (case-insensitively) and on normalized
text, the larger result winning. -/
def overlapSliceIndex (beforeCursor completion : List Char) : Nat :=
  let bw := lastN 120 beforeCursor
  let lowerBefore := lowAll bw
  let lowerComp := lowAll completion
  let directOverlap :=
    overlapFrom (min lowerBefore.length lowerComp.length) lowerBefore lowerComp
  let normBefore := normText bw
  let normComp := normText completion
  let normOverlap :=
    overlapFrom (min normBefore.length normComp.length) normBefore normComp
  if directOverlap < normOverlap then
    max directOverlap (walkIdx normOverlap [] completion)
  else directOverlap

/-- The final slice of `removeContextOverlap`: drop the computed overlap,
trim the start, and strip leading punctuation leftovers; a zero slice index
returns the completion unchanged. -/
def removeContextOverlap (beforeCursor completion : List Char) : List Char :=
  if 0 < overlapSliceIndex beforeCursor completion then
    stripLeadingPunct
      ((completion.drop (overlapSliceIndex beforeCursor completion)).dropWhile isWsChar)
  else completion

/-- JS `beforeCursor.match(/[^.!?]*$/)[0]`: the suffix after the last
sentence terminator. -/
def afterLastTerm (s : List Char) : List Char :=
  (s.reverse.takeWhile (fun c => !isTermChar c)).reverse

/-- The function `stripCursorArtifacts` (lines 1305-1314): remove the cursor marker, its
partials, and every case-insensitive occurrence of "CUR", then trim. -/
def stripCursorArtifacts (text : List Char) : List Char :=
  if text = [] then text
  else trimChars (removeAllCI "CUR".data
    (removeAllCI "CURSOR]".data
      (removeAllCI "[CURS".data
        (removeAllCI "[CURSOR]".data text))))

/-- The function `cleanCompletionText` (lines 537-558): strip
cursor artifacts, remove the context overlap, strip a repeated last-sentence
fragment, and strip leading duplicate punctuation. -/
def cleanCompletionText (completion beforeCursor : List Char) : List Char :=
  if completion = [] then completion
  else
    let c1 := stripCursorArtifacts completion
    let c2 := removeContextOverlap beforeCursor c1
    let lastSentence := trimChars (afterLastTerm beforeCursor)
    let c3 :=
      if lastSentence ≠ [] ∧ startsWithCI lastSentence c2 then
        trimChars (c2.drop lastSentence.length)
      else c2
    stripLeadingPunct c3

/-- Number of matches of `/[\.\!\?](\s|$)/g`: a terminator followed by a
whitespace character (which the match consumes) or the end of the string. -/
def countSentenceMarks : List Char → Nat
  | [] => 0
  | [c] => if isTermChar c then 1 else 0
  | c :: w :: rest' =>
    if isTermChar c then
      if isWsChar w then 1 + countSentenceMarks rest'
      else countSentenceMarks (w :: rest')
    else countSentenceMarks (w :: rest')

/-- The predicate `shouldEarlyStopStreaming` (lines 400-404): stop once the cleaned
projection contains at least `maxSentences` sentence-terminating marks. -/
def shouldEarlyStopStreaming (maxSentences : Nat) (text : List Char) : Bool :=
  if text = [] then false else maxSentences ≤ countSentenceMarks text

/-- JS `text.split(/([\.\!\?](?:\s|$))/)`: alternating segments and captured
separators, scanning left to right; `cur` is the reversed current segment. -/
def splitAux : List Char → List Char → List (List Char)
  | [], cur => [cur.reverse]
  | [c], cur =>
    if isTermChar c then [cur.reverse, [c], []]
    else [(c :: cur).reverse]
  | c :: w :: rest', cur =>
    if isTermChar c then
      if isWsChar w then cur.reverse :: [c, w] :: splitAux rest' []
      else splitAux (w :: rest') (c :: cur)
    else splitAux (w :: rest') (c :: cur)

/-- The collection loop of `limitToSentenceRange`: walk the tokens two at a
time (segment, separator), trim the segment, skip empty segments, push
segment plus separator, and stop once `maxSentences` sentences were pushed
(`cnt` counts the sentences already pushed). -/
def collectSentences (maxS : Nat) : Nat → List (List Char) → List (List Char)
  | _, [] => []
  | _, [seg] => if trimChars seg = [] then [] else [trimChars seg]
  | cnt, seg :: sep :: rest =>
    if trimChars seg = [] then collectSentences maxS cnt rest
    else if maxS ≤ cnt + 1 then [trimChars seg ++ sep]
    else (trimChars seg ++ sep) :: collectSentences maxS (cnt + 1) rest

/-- The same collection loop without the sentence bound: every sentence-like
segment of the token list, in original order. -/
def collectAll : List (List Char) → List (List Char)
  | [] => []
  | [seg] => if trimChars seg = [] then [] else [trimChars seg]
  | seg :: sep :: rest =>
    if trimChars seg = [] then collectAll rest
    else (trimChars seg ++ sep) :: collectAll rest

/-- The function `limitToSentenceRange` (lines 406-418). `minSentences` is accepted but
unused, exactly as in the source. -/
def limitToSentenceRange (text : List Char) (minSentences maxSentences : Nat) :
    List Char :=
  if text = [] then text
  else trimChars (joinSp (collectSentences maxSentences 0 (splitAux text [])))

/-- The streaming accumulation loop of `generateCompletionStreaming` (lines
313-325): append each fragment, clean the accumulated buffer, and break out
of the loop (leaving the remaining fragments unconsumed) as soon as the
cleaned projection triggers the early stop.  Returns the accumulated buffer
and the unconsumed fragments. -/
def streamAssemble (beforeCursor : List Char) (maxS : Nat) :
    List (List Char) → List Char → List Char × List (List Char)
  | [], acc => (acc, [])
  | c :: rest, acc =>
    let acc' := acc ++ c
    if shouldEarlyStopStreaming maxS (cleanCompletionText acc' beforeCursor) then
      (acc', rest)
    else streamAssemble beforeCursor maxS rest acc'

/-- Finalization of the streaming path (lines 369-370): clean the
accumulated buffer, trim, and re-apply the sentence-range trim. -/
def streamFinalText (beforeCursor : List Char) (minS maxS : Nat)
    (chunks : List (List Char)) : List Char :=
  limitToSentenceRange
    (trimChars (cleanCompletionText
      (streamAssemble beforeCursor maxS chunks []).1 beforeCursor))
    minS maxS

/- ## Cache key derivation: buildCacheKey (content.js lines 420-431) -/

/-- JS `| 0`: wrap an integer to signed 32-bit. -/
def toInt32 (n : Int) : Int := (n + 2 ^ 31) % 2 ^ 32 - 2 ^ 31

/-- One step of the hash loop: `hash = ((hash << 5) - hash) + chr; hash |= 0`
(the shift coerces to 32 bits, the sum is exact, then the
result is wrapped). -/
def hashStep (h : Int) (c : Nat) : Int := toInt32 (toInt32 (h * 32) - h + c)

/-- The string hash of `buildCacheKey` over the char codes of the payload. -/
def hashPayload (s : List Char) : Int :=
  s.foldl (fun h c => hashStep h c.toNat) 0

/-- The function `buildCacheKey` (lines 420-431): payload
`site + "|" + beforeCursor.slice(-200) + "|" + language`, hashed, prefixed
with "k:". -/
def buildCacheKey (site beforeCursor language : List Char) : String :=
  let keyPayload := site ++ '|' :: (lastN 200 beforeCursor ++ '|' :: language)
  "k:" ++ toString (hashPayload keyPayload)

/- ## TriggerController: handleTrigger (content.js lines 177-213) -/

/-- The outcome of a trigger, in the order the checks are made. -/
inductive TriggerOutcome where
  | rateLimited
  | noSurface
  | siteDisabled
  | admitted
deriving DecidableEq

/-- The front of `handleTrigger`: the rate-limit check against the stored
timestamp, the editable-surface check, and the per-site preference check.
Returns the outcome together with the new value of `_lastTriggerTs`.  Note
that the source assigns `this._lastTriggerTs = nowTs` immediately after the
rate-limit check, before the surface and site checks. -/
def handleTrigger (lastTriggerTs minTriggerIntervalMs now : Int)
    (hasEditable siteEnabled : Bool) : TriggerOutcome × Int :=
  if now - lastTriggerTs < minTriggerIntervalMs then (.rateLimited, lastTriggerTs)
  else if hasEditable = false then (.noSurface, now)
  else if siteEnabled = false then (.siteDisabled, now)
  else (.admitted, now)

/- ## Structured batch responses: handleCompletionResponse (lines 733-783) -/

/-- A parsed structured response
`{accept: boolean, confidence: number, sentences: string[]}`. -/
structure StructResult where
  accept : Bool
  confidence : ℚ
  sentences : List (List Char)
deriving DecidableEq

/-- What `handleCompletionResponse` shows for a parsed structured result. -/
inductive CompletionDisplay where
  | noSuitable
  | lowConfidence (text : List Char)
  | accepted (text : List Char)
  | noUnique
deriving DecidableEq

/-- The function `handleCompletionResponse` (lines 733-783) on an already-parsed result:
rejected/empty results show "No suitable completion found"; a result with
confidence below 0.3 is shown as a low-confidence completion with the
cleaned text attached unless the cleaned text is blank; otherwise the
cleaned text is accepted unless blank. -/
def handleCompletionResponse (result : StructResult) (beforeCursor : List Char) :
    CompletionDisplay :=
  if result.accept = false ∨ result.sentences = [] then .noSuitable
  else
    let completion :=
      cleanCompletionText (trimChars (joinSp result.sentences)) beforeCursor
    if result.confidence < 3 / 10 then
      if trimChars completion = [] then .noSuitable
      else .lowConfidence completion
    else
      if trimChars completion = [] then .noUnique
      else .accepted completion

/- ## ContextExtractor: extractContext (content.js lines 433-495) -/

/-- The `ContextWindow` returned by `extractContext`. -/
structure ContextData where
  text : List Char
  recentText : List Char
  beforeCursor : List Char
  afterCursor : List Char
  fullText : List Char
deriving DecidableEq

/-- The function `extractContext` (lines 433-495) on the host surface values: the recent
window is the last 200 characters of the raw before-cursor text; when the
raw prefix exceeds 1000 characters and a summarizer is available, the
processed before-cursor text becomes a summary marker plus the last 500 raw
characters, falling back to the last 800 characters when summarization
fails. -/
def extractContext (beforeCursor afterCursor fullText : List Char)
    (hasSummarizer : Bool) (summarize : List Char → Option (List Char)) :
    ContextData :=
  let recentText := lastN 200 beforeCursor
  let processedBeforeCursor :=
    if 1000 < beforeCursor.length ∧ hasSummarizer = true then
      match summarize (beforeCursor.take (beforeCursor.length - 500)) with
      | some summary =>
        "[Earlier context: ".data ++ summary ++ ']' :: '\n' :: '\n' ::
          lastN 500 beforeCursor
      | none => lastN 800 beforeCursor
    else beforeCursor
  { text := processedBeforeCursor, recentText := recentText,
    beforeCursor := processedBeforeCursor, afterCursor := afterCursor,
    fullText := fullText }

/- ## CompletionOrchestrator: generateCompletion (content.js lines 215-300) -/

/-- Provider invocations made during one request cycle. -/
inductive ProviderCall where
  | detectLanguage
  | promptStream
  | promptModel
deriving DecidableEq

/-- Outcome of one `generateCompletion` cycle. -/
inductive GenStatus where
  | noContext
  | cacheHit (t : String)
  | streamedResult (t : List Char)
  | streamedEmpty
  | batchOutcome (d : CompletionDisplay)
deriving DecidableEq

/-- The collaborators and oracle responses of one request cycle: provider
availability, the detector's result list, the site identifier, the current
cache with its capacity, the streaming fragments and the structured batch
response the model would return. -/
structure GenDeps where
  hasDetector : Bool
  detection : List (List Char × ℚ)
  site : List Char
  cache : List (String × String)
  cap : Nat
  hasStreaming : Bool
  chunks : List (List Char)
  batchResp : StructResult
  minSentences : Nat
  maxSentences : Nat

/-- The guard of the language-detection block: a detector is present and the
context text has at least 10 characters. -/
def detectorUsed (deps : GenDeps) (ctx : ContextData) : Bool :=
  deps.hasDetector && decide (10 ≤ ctx.text.length)

/-- The detected language: the detector's top result when its confidence is
at least 0.5, the default "en" otherwise. -/
def detectedLanguage (deps : GenDeps) (ctx : ContextData) : List Char :=
  if detectorUsed deps ctx = true then
    match deps.detection with
    | [] => "en".data
    | (l, conf) :: _ => if (1 : ℚ) / 2 ≤ conf then l else "en".data
  else "en".data

/-- The function `generateCompletion` (lines 215-300) as a function of the extracted
context and the collaborator oracles.  Returns the outcome, the list of
provider invocations made, and the cache after the cycle.  The empty-context
check precedes language detection, the cache probe, and any model call;
on a cache hit the model is never invoked; otherwise the streaming path is
preferred when available, and on the batch path the response is shown via
`handleCompletionResponse` and a non-empty cleaned completion is cached. -/
def generateCompletion (deps : GenDeps) (ctx : ContextData) :
    GenStatus × List ProviderCall × List (String × String) :=
  if trimChars ctx.text = [] then (.noContext, [], deps.cache)
  else
    let calls := if detectorUsed deps ctx = true then [ProviderCall.detectLanguage] else []
    let lang := detectedLanguage deps ctx
    let key := buildCacheKey deps.site ctx.beforeCursor lang
    match lruGet deps.cache key with
    | (some v, cache') => (.cacheHit v, calls, cache')
    | (none, cache') =>
      if deps.hasStreaming = true then
        let finalText :=
          streamFinalText ctx.beforeCursor deps.minSentences deps.maxSentences deps.chunks
        if finalText ≠ [] then
          (.streamedResult finalText, calls ++ [.promptStream],
            lruSet deps.cap cache' key (String.mk finalText))
        else (.streamedEmpty, calls ++ [.promptStream], cache')
      else
        let outcome := handleCompletionResponse deps.batchResp ctx.beforeCursor
        let completion :=
          cleanCompletionText (trimChars (joinSp deps.batchResp.sentences)) ctx.beforeCursor
        let cache'' :=
          if deps.batchResp.sentences ≠ [] ∧ completion ≠ [] then
            lruSet deps.cap cache' key (String.mk completion)
          else cache'
        (.batchOutcome outcome, calls ++ [.promptModel], cache'')

/- ## C2: early stop during streaming assembly -/

/-- Claim C2: during streaming assembly, as soon as the cleaned projection
of the accumulated buffer reaches `maxSentences` sentence-terminating marks,
the loop stops and leaves the remaining fragments unconsumed; concretely,
with `maxSentences = 2` and fragments accumulating to
"Hello there. This is great. More text", assembly stops after the second
sentence terminator, the fragment "More text" is never consumed, and the
finalized output contains exactly two sentences and no third sentence. -/
theorem streaming_early_stop (beforeCursor acc c : List Char)
    (rest : List (List Char)) (maxS : Nat)
    (h : shouldEarlyStopStreaming maxS
      (cleanCompletionText (acc ++ c) beforeCursor) = true) :
    streamAssemble beforeCursor maxS (c :: rest) acc = (acc ++ c, rest)
  ∧ streamAssemble [] 2
      ["Hello there. ".data, "This is great. ".data, "More text".data] []
      = ("Hello there. This is great. ".data, ["More text".data])
  ∧ streamFinalText [] 1 2
      ["Hello there. ".data, "This is great. ".data, "More text".data]
      = "Hello there.  This is great.".data
  ∧ countSentenceMarks (streamFinalText [] 1 2
      ["Hello there. ".data, "This is great. ".data, "More text".data]) = 2
  ∧ containsCI "More".data (streamFinalText [] 1 2
      ["Hello there. ".data, "This is great. ".data, "More text".data]) = false := by
  refine ⟨?_, by decide, by decide, by decide, by decide⟩
  rw [streamAssemble]
  simp only [h, if_true]

/-- Witness for C2: the early stop fires on the concrete buffer
"Hello there. This is great. " with the fragment "More text" still pending. -/
theorem streaming_early_stop_witness :
    streamAssemble [] 2 ["This is great. ".data, "More text".data]
      "Hello there. ".data
      = ("Hello there. This is great. ".data, ["More text".data]) :=
  (streaming_early_stop [] "Hello there. ".data "This is great. ".data
    ["More text".data] 2 (by decide)).1

/- ## C3: the sentence-range trim -/

theorem collect_isHeadOf_aux (maxS : Nat) :
    ∀ (n : Nat) (toks : List (List Char)), toks.length ≤ n →
      ∀ cnt, ∃ t, collectSentences maxS cnt toks ++ t = collectAll toks := by
  intro n
  induction n with
  | zero =>
    intro toks h cnt
    have : toks = [] := List.length_eq_zero.mp (Nat.le_zero.mp h)
    subst this
    exact ⟨[], rfl⟩
  | succ n ih =>
    intro toks h cnt
    match toks with
    | [] => exact ⟨[], rfl⟩
    | [seg] =>
      refine ⟨[], ?_⟩
      by_cases hs : trimChars seg = [] <;> simp [collectSentences, collectAll, hs]
    | seg :: sep :: rest =>
      have hlen : rest.length ≤ n := by
        simp only [List.length_cons] at h
        omega
      by_cases hs : trimChars seg = []
      · obtain ⟨t, ht⟩ := ih rest hlen cnt
        exact ⟨t, by simp [collectSentences, collectAll, hs, ht]⟩
      · by_cases hm : maxS ≤ cnt + 1
        · exact ⟨collectAll rest, by simp [collectSentences, collectAll, hs, hm]⟩
        · obtain ⟨t, ht⟩ := ih rest hlen (cnt + 1)
          exact ⟨t, by simp [collectSentences, collectAll, hs, hm, ht]⟩

theorem collect_length_aux (maxS : Nat) :
    ∀ (n : Nat) (toks : List (List Char)), toks.length ≤ n →
      ∀ cnt, cnt < maxS →
        (collectSentences maxS cnt toks).length ≤ maxS - cnt := by
  intro n
  induction n with
  | zero =>
    intro toks h cnt hcnt
    have : toks = [] := List.length_eq_zero.mp (Nat.le_zero.mp h)
    subst this
    simp [collectSentences]
  | succ n ih =>
    intro toks h cnt hcnt
    match toks with
    | [] => simp [collectSentences]
    | [seg] =>
      by_cases hs : trimChars seg = []
      · simp [collectSentences, hs]
      · simp only [collectSentences, hs, if_neg, List.length_singleton]
        simp
        omega
    | seg :: sep :: rest =>
      have hlen : rest.length ≤ n := by
        simp only [List.length_cons] at h
        omega
      by_cases hs : trimChars seg = []
      · simpa [collectSentences, hs] using ih rest hlen cnt hcnt
      · by_cases hm : maxS ≤ cnt + 1
        · simp [collectSentences, hs, hm]
          omega
        · have := ih rest hlen (cnt + 1) (by omega)
          simp [collectSentences, hs, hm]
          omega

/-- Claim C3: the sentence-range trim splits the cleaned text into
sentence-like segments at terminator boundaries, keeps segments in original
order up to `maxSentences` (the kept list is a prefix of the full segment
list and has at most `maxSentences` elements), and joins them with single
spaces; concretely, with `minSentences = 1`, `maxSentences = 3` and five
generated sentences, the result keeps the first three sentences, in original
order, each still ending with its original terminator. -/
theorem limitToSentenceRange_trim (text : List Char) (minS maxS : Nat)
    (hmax : 1 ≤ maxS) (hne : text ≠ []) :
    (∃ t, collectSentences maxS 0 (splitAux text []) ++ t
        = collectAll (splitAux text []))
  ∧ (collectSentences maxS 0 (splitAux text [])).length ≤ maxS
  ∧ limitToSentenceRange text minS maxS
      = trimChars (joinSp (collectSentences maxS 0 (splitAux text [])))
  ∧ limitToSentenceRange "One. Two. Three. Four. Five.".data 1 3
      = "One.  Two.  Three.".data
  ∧ collectSentences 3 0 (splitAux "One. Two. Three. Four. Five.".data [])
      = ["One. ".data, "Two. ".data, "Three. ".data]
  ∧ countSentenceMarks
      (limitToSentenceRange "One. Two. Three. Four. Five.".data 1 3) = 3 := by
  refine ⟨collect_isHeadOf_aux maxS _ _ (le_refl _) 0, ?_, ?_,
    by decide, by decide, by decide⟩
  · have := collect_length_aux maxS _ _ (le_refl (splitAux text []).length) 0 hmax
    omega
  · rw [limitToSentenceRange, if_neg hne]

/-- Witness for C3 at the concrete five-sentence input. -/
theorem limitToSentenceRange_trim_witness :
    (collectSentences 3 0
      (splitAux "One. Two. Three. Four. Five.".data [])).length ≤ 3 :=
  (limitToSentenceRange_trim "One. Two. Three. Four. Five.".data 1 3
    (by decide) (by decide)).2.1

/- ## C4: overlap-removal cleaning is length-non-increasing, not idempotent -/

theorem length_dropWhileWs_le (p : Char → Bool) (l : List Char) :
    (l.dropWhile p).length ≤ l.length :=
  (List.dropWhile_sublist _).length_le

theorem length_trimChars_le (s : List Char) : (trimChars s).length ≤ s.length := by
  rw [trimChars]
  calc ((s.dropWhile isWsChar).reverse.dropWhile isWsChar).reverse.length
      = ((s.dropWhile isWsChar).reverse.dropWhile isWsChar).length := by
        rw [List.length_reverse]
    _ ≤ (s.dropWhile isWsChar).reverse.length := length_dropWhileWs_le _ _
    _ = (s.dropWhile isWsChar).length := by rw [List.length_reverse]
    _ ≤ s.length := length_dropWhileWs_le _ _

theorem length_removeAllAux_le (pat : List Char) :
    ∀ (fuel : Nat) (s : List Char), (removeAllAux pat fuel s).length ≤ s.length := by
  intro fuel
  induction fuel with
  | zero => intro s; rw [removeAllAux]
  | succ n ih =>
    intro s
    cases s with
    | nil => rw [removeAllAux]
    | cons c rest =>
      rw [removeAllAux]
      by_cases h : startsWithCI pat (c :: rest) = true ∧ pat ≠ []
      · rw [if_pos h]
        calc (removeAllAux pat n ((c :: rest).drop pat.length)).length
            ≤ ((c :: rest).drop pat.length).length := ih _
          _ ≤ (c :: rest).length := by
              rw [List.length_drop]
              exact Nat.sub_le _ _
      · rw [if_neg h]
        simp only [List.length_cons]
        exact Nat.succ_le_succ (ih rest)

theorem length_removeAllCI_le (pat s : List Char) :
    (removeAllCI pat s).length ≤ s.length :=
  length_removeAllAux_le pat s.length s

theorem length_stripCursorArtifacts_le (s : List Char) :
    (stripCursorArtifacts s).length ≤ s.length := by
  rw [stripCursorArtifacts]
  by_cases h : s = []
  · rw [if_pos h]
  · rw [if_neg h]
    calc (trimChars (removeAllCI "CUR".data
          (removeAllCI "CURSOR]".data
            (removeAllCI "[CURS".data
              (removeAllCI "[CURSOR]".data s))))).length
        ≤ (removeAllCI "CUR".data
            (removeAllCI "CURSOR]".data
              (removeAllCI "[CURS".data
                (removeAllCI "[CURSOR]".data s)))).length := length_trimChars_le _
      _ ≤ (removeAllCI "CURSOR]".data
            (removeAllCI "[CURS".data
              (removeAllCI "[CURSOR]".data s))).length := length_removeAllCI_le _ _
      _ ≤ (removeAllCI "[CURS".data
            (removeAllCI "[CURSOR]".data s)).length := length_removeAllCI_le _ _
      _ ≤ (removeAllCI "[CURSOR]".data s).length := length_removeAllCI_le _ _
      _ ≤ s.length := length_removeAllCI_le _ _

theorem length_stripLeadingPunct_le (s : List Char) :
    (stripLeadingPunct s).length ≤ s.length := by
  rw [stripLeadingPunct]
  by_cases h : (s.dropWhile isLeadPunctChar).length = s.length
  · simp only [h, if_pos]
    exact le_refl _
  · simp only [h, if_neg, Bool.false_eq_true, not_false_eq_true]
    calc ((s.dropWhile isLeadPunctChar).dropWhile isWsChar).length
        ≤ (s.dropWhile isLeadPunctChar).length := length_dropWhileWs_le _ _
      _ ≤ s.length := length_dropWhileWs_le _ _

theorem length_removeContextOverlap_le (beforeCursor completion : List Char) :
    (removeContextOverlap beforeCursor completion).length ≤ completion.length := by
  simp only [removeContextOverlap]
  split
  · refine le_trans (length_stripLeadingPunct_le _) ?_
    refine le_trans (length_dropWhileWs_le _ _) ?_
    rw [List.length_drop]
    exact Nat.sub_le _ _
  · exact le_refl _

theorem length_cleanCompletionText_le (completion beforeCursor : List Char) :
    (cleanCompletionText completion beforeCursor).length ≤ completion.length := by
  simp only [cleanCompletionText]
  split
  · exact le_refl _
  · refine le_trans (length_stripLeadingPunct_le _) ?_
    refine le_trans ?_ (le_trans
      (length_removeContextOverlap_le beforeCursor (stripCursorArtifacts completion))
      (length_stripCursorArtifacts_le completion))
    split
    · refine le_trans (length_trimChars_le _) ?_
      rw [List.length_drop]
      exact Nat.sub_le _ _
    · exact le_refl _

/-- Claim C4 counterexample: cleaning is not idempotent.  With context
"xy." and completion "xy.xy." one cleaning pass leaves "xy.", and a second
pass over the already-cleaned pair removes the rest, so cleaning twice
differs from cleaning once. -/
theorem cleanCompletionText_not_idempotent :
    cleanCompletionText "xy.xy.".data "xy.".data = "xy.".data
  ∧ cleanCompletionText (cleanCompletionText "xy.xy.".data "xy.".data)
      "xy.".data = []
  ∧ cleanCompletionText (cleanCompletionText "xy.xy.".data "xy.".data)
      "xy.".data ≠ cleanCompletionText "xy.xy.".data "xy.".data :=
  ⟨by decide, by decide, by decide⟩

/-- Claim C4 (amended): overlap-removal cleaning is not idempotent — a
second application over an already-cleaned pair may strip further text —
but it never lengthens: the twice-cleaned completion is never longer than
the once-cleaned completion. -/
theorem cleanCompletionText_twice_le (completion beforeCursor : List Char) :
    (cleanCompletionText (cleanCompletionText completion beforeCursor)
      beforeCursor).length
      ≤ (cleanCompletionText completion beforeCursor).length :=
  length_cleanCompletionText_le _ _

/- ## C5: cache key derivation -/

set_option maxRecDepth 10000 in
/-- Claim C5 counterexample: two triples that differ in the before-cursor
component can hash to the same key — under the 31x+c hash, "Aa" and "BB"
collide, so the derived keys are identical although the triples differ. -/
theorem buildCacheKey_collision :
    buildCacheKey "x".data "Aa".data "en".data
      = buildCacheKey "x".data "BB".data "en".data
  ∧ "Aa".data ≠ "BB".data :=
  ⟨by decide, by decide⟩

/-- Claim C5 (amended): the key is a pure function of the triple — in fact
of the site, the last 200 characters of the before-cursor text, and the
language — so identical triples always yield the identical key; but
distinct triples may collide (the hash is not injective). -/
theorem buildCacheKey_deterministic (site b b' language : List Char)
    (h : lastN 200 b = lastN 200 b') :
    buildCacheKey site b language = buildCacheKey site b' language := by
  simp only [buildCacheKey, h]

set_option maxRecDepth 100000 in
/-- Witness for the amended C5: a 201-character prefix and its own last 200
characters share a key. -/
theorem buildCacheKey_deterministic_witness :
    buildCacheKey "x".data (List.replicate 201 'a') "en".data
      = buildCacheKey "x".data (List.replicate 200 'a') "en".data :=
  buildCacheKey_deterministic "x".data _ _ "en".data (by decide)

/- ## C6: trigger rate limiting -/

/-- Claim C6 counterexample: a trigger 1000 ms after the last stamp passes
the rate limit, is then rejected because no editable surface is focused,
and still overwrites the rate-limit timestamp (1000 instead of the old 0) —
so the timestamp is not recorded only on admission. -/
theorem handleTrigger_stamp_on_rejection :
    handleTrigger 0 350 1000 false true = (.noSurface, 1000)
  ∧ (1000 : Int) ≠ 0 :=
  ⟨by decide, by decide⟩

/-- Claim C6 (amended): a trigger is rejected by the rate limit exactly when
less than `minTriggerIntervalMs` has elapsed since the stored timestamp; a
rate-limited trigger leaves the timestamp unchanged; and every trigger that
passes the rate-limit check overwrites the timestamp with the current time,
even when it is subsequently rejected for want of an editable surface or a
disabled site. -/
theorem handleTrigger_rate_limit (lastTs minI now : Int) (he se : Bool) :
    ((handleTrigger lastTs minI now he se).1 = .rateLimited ↔ now - lastTs < minI)
  ∧ (now - lastTs < minI → (handleTrigger lastTs minI now he se).2 = lastTs)
  ∧ (¬ now - lastTs < minI → (handleTrigger lastTs minI now he se).2 = now) := by
  by_cases h : now - lastTs < minI
  · simp [handleTrigger, h]
  · simp only [handleTrigger, h, if_neg, not_false_eq_true]
    cases he <;> cases se <;> simp

/-- Witness for the amended C6 at concrete times 100 (rate limited) and
1000 (admitted to the later checks, timestamp overwritten). -/
theorem handleTrigger_rate_limit_witness :
    (handleTrigger 0 350 100 true true).1 = .rateLimited
  ∧ (handleTrigger 0 350 1000 false true).2 = 1000 :=
  ⟨(handleTrigger_rate_limit 0 350 100 true true).1.mpr (by decide),
   (handleTrigger_rate_limit 0 350 1000 false true).2.2 (by decide)⟩

/- ## C7: low-confidence gating -/

/-- Claim C7 counterexample: a structured response with confidence 0.2 and a
non-empty sentences array whose accept flag is false is shown as "no
suitable completion" with no text attached — it is not offered with a
low-confidence flag. -/
theorem lowConfidence_not_always_offered :
    handleCompletionResponse ⟨false, 1 / 5, ["It works well.".data]⟩ []
      = .noSuitable
  ∧ ((1 : ℚ) / 5 < 3 / 10)
  ∧ ["It works well.".data] ≠ ([] : List (List Char)) :=
  ⟨by decide, by norm_num, by decide⟩

/-- Claim C7 (amended): for every structured response with the accept flag
set, a non-empty sentences array, confidence below 0.3, and a cleaned
completion that is not blank, the result is offered with the low-confidence
flag and the cleaned completion text attached rather than dropped. -/
theorem lowConfidence_flagged (result : StructResult) (beforeCursor : List Char)
    (ha : result.accept = true) (hs : result.sentences ≠ [])
    (hc : result.confidence < 3 / 10)
    (hnb : trimChars (cleanCompletionText (trimChars (joinSp result.sentences))
      beforeCursor) ≠ []) :
    handleCompletionResponse result beforeCursor
      = .lowConfidence (cleanCompletionText (trimChars (joinSp result.sentences))
          beforeCursor) := by
  have h1 : ¬ (result.accept = false ∨ result.sentences = []) := by
    simp [ha, hs]
  simp only [handleCompletionResponse]
  rw [if_neg h1, if_pos hc, if_neg hnb]

/-- Witness for the amended C7: an accepted response with confidence 0.2
yields a low-confidence result with its cleaned text. -/
theorem lowConfidence_flagged_witness :
    handleCompletionResponse ⟨true, 1 / 5, ["It works well.".data]⟩ []
      = .lowConfidence "It works well.".data := by
  have h := lowConfidence_flagged ⟨true, 1 / 5, ["It works well.".data]⟩ []
    rfl (by decide) (by norm_num) (by decide)
  exact h.trans (by decide)

/- ## C8: empty-context rejection -/

/-- Claim C8: when the extracted context's before-cursor text is empty or
whitespace-only, `generateCompletion` reports the empty-context status,
makes no provider call (neither the language detector nor the model), and
leaves the cache untouched. -/
theorem emptyContext_no_provider_call (deps : GenDeps)
    (beforeCursor afterCursor fullText : List Char) (hasSummarizer : Bool)
    (summarize : List Char → Option (List Char))
    (h : trimChars (extractContext beforeCursor afterCursor fullText
      hasSummarizer summarize).text = []) :
    generateCompletion deps
      (extractContext beforeCursor afterCursor fullText hasSummarizer summarize)
      = (.noContext, [], deps.cache) := by
  rw [generateCompletion, if_pos h]

/-- A concrete collaborator bundle for the C8 witness. -/
def demoGenDeps : GenDeps :=
  ⟨false, [], "s".data, [], 60, false, [], ⟨false, 0, []⟩, 1, 3⟩

set_option maxRecDepth 10000 in
/-- Witness for C8: extraction over a whitespace-only before-cursor text
yields the empty-context status with no provider calls. -/
theorem emptyContext_no_provider_call_witness :
    generateCompletion demoGenDeps
      (extractContext "   ".data [] "   ".data false (fun _ => none))
      = (.noContext, [], demoGenDeps.cache) :=
  emptyContext_no_provider_call demoGenDeps "   ".data [] "   ".data false
    (fun _ => none) (by decide)

/- ## C9: the recent window is always the verbatim raw suffix -/

/-- Claim C9: for every extraction, the returned recent window equals the
last 200 characters of the raw before-cursor text — a verbatim suffix of
the true prefix (the raw text is the dropped prefix plus the window) — for
every summarizer behaviour, including the long-text cases in which
`beforeCursor` is replaced by a summary-plus-tail or a truncation. -/
theorem recentWindow_verbatim (beforeCursor afterCursor fullText : List Char)
    (hasSummarizer : Bool) (summarize : List Char → Option (List Char)) :
    (extractContext beforeCursor afterCursor fullText hasSummarizer
      summarize).recentText = lastN 200 beforeCursor
  ∧ beforeCursor.take (beforeCursor.length - 200) ++ lastN 200 beforeCursor
      = beforeCursor := by
  constructor
  · simp only [extractContext]
  · exact List.take_append_drop _ _

/- ## C10: cursor-marker stripping deletes "cur" in one pass -/

set_option maxRecDepth 10000 in
/-- Claim C10 counterexample to "the cleaned completion text contains no
occurrence of cur": the single-pass deletion can create a fresh occurrence;
cleaning "CUCURR" (with empty context) yields "CUR", which still contains
"cur" case-insensitively. -/
theorem cleanCompletionText_cur_reappears :
    cleanCompletionText "CUCURR".data [] = "CUR".data
  ∧ containsCI "cur".data (cleanCompletionText "CUCURR".data []) = true :=
  ⟨by decide, by decide⟩

theorem removeAllAux_of_not_contains (pat : List Char) :
    ∀ (fuel : Nat) (s : List Char), containsCI pat s = false →
      removeAllAux pat fuel s = s := by
  intro fuel
  induction fuel with
  | zero => intro s h; rfl
  | succ n ih =>
    intro s h
    cases s with
    | nil => rfl
    | cons c rest =>
      rw [containsCI, Bool.or_eq_false_iff] at h
      rw [removeAllAux, if_neg, ih rest h.2]
      intro hcon
      rw [h.1] at hcon
      exact Bool.false_ne_true hcon.1

/-- Claim C10 (amended): the stripping pass deletes, left to right, the
non-overlapping case-insensitive occurrences of "cur" present in its input —
including inside ordinary words, e.g. "current" becomes "rent", "occur"
becomes "oc" and "secure" becomes "see" — and is the identity on any input
with no such occurrence; but the pass is applied once, so deletions can
create a fresh occurrence and the cleaned output is not guaranteed to be
free of "cur". -/
theorem stripCursor_single_pass (s : List Char)
    (h : containsCI "CUR".data s = false) :
    stripCursorArtifacts "current".data = "rent".data
  ∧ stripCursorArtifacts "occur".data = "oc".data
  ∧ stripCursorArtifacts "secure".data = "see".data
  ∧ removeAllCI "CUR".data s = s :=
  ⟨by decide, by decide, by decide, removeAllAux_of_not_contains _ _ s h⟩

/-- Witness for the amended C10 on a "cur"-free input. -/
theorem stripCursor_single_pass_witness :
    removeAllCI "CUR".data "hello".data = "hello".data :=
  (stripCursor_single_pass "hello".data (by decide)).2.2.2
